import Mathlib

/-
Verification of the `track` package (toybox/train): a persistent append-only
message log made of fixed-capacity chunk files.

The embedding below translates the Go sources:
  * `FileStorage` (src/train/track/file_storage.go): a chunk file with a
    memory-mapped header (capacity word + offset table) and an append-only
    data region.
  * `Track` / `StorageReader` (src/unnamed/part_002, the draft with
    `OpenTrack` by file enumeration and `WaitForShutdown`): a sequence of
    chunks with a single serialized writer and per-consumer readers.

Machine integers: Go `uint64` values are modelled as `Nat` together with
explicit wrap-around `% 2^64` at the arithmetic operations the code performs
(offset-table addition in `WriteMessage`, subtraction in `SizeOf`, and the
`int`-to-`uint64` conversion in `Open`'s size recovery).  Go slice indexing
that would panic at runtime is modelled by `Option`-returning access, with a
dedicated error constructor standing for the runtime panic; `utils.Check`
(which panics on a non-nil error) is modelled by collapsing to a fatal
outcome.  File-system effects are modelled by keeping each chunk's on-disk
contents (`ChunkFile`) inside the state: mmap writes and file appends reach
the on-disk contents directly, mirroring a shared mapping plus an append-only
file descriptor.
-/

deriving instance DecidableEq for Except

namespace Toybox

/-- `2^64`, the modulus of Go's `uint64` arithmetic. -/
def U64 : Nat := 2 ^ 64

/-- Go `uint64` addition (wraps at `2^64`). -/
def add64 (a b : Nat) : Nat := (a + b) % U64

/-- Go `uint64` subtraction `a - b` (wraps at `2^64`); both arguments are
always below `2^64` in the states the code produces. -/
def sub64 (a b : Nat) : Nat := (a + U64 - b) % U64

/-- On-disk contents of one chunk file: the capacity word (bytes `[0,8)`),
the offset table (`capacity+1` words), and the data region that follows the
header.  Mirrors the file layout documented at the top of
`file_storage.go`. -/
structure ChunkFile where
  capacityWord : Nat
  table : List Nat
  data : List Nat
deriving DecidableEq

/-- The `index` field of the Go struct is either the live slice over the
memory-mapped header (writable chunk) or the plain array produced by
`switchToReadOnly`'s copy. -/
inductive HeaderView
  | mapped
  | copied (arr : List Nat)
deriving DecidableEq

/-- In-memory `FileStorage` state (`file_storage.go`): `Capacity`, `Size`,
the current `index` view, and the chunk's on-disk file.  `fileId`/`rootPath`
only name the file and are left out; the on-disk file a fresh read-only
handle would open is `disk`. -/
structure FileStorage where
  capacity : Nat
  size : Nat
  view : HeaderView
  disk : ChunkFile
deriving DecidableEq

/-- The slice held in the Go struct's `index` field: while mapped it aliases
the on-disk offset table; after `switchToReadOnly` it is the copied array. -/
def currentIndex (s : FileStorage) : List Nat :=
  match s.view with
  | .mapped => s.disk.table
  | .copied arr => arr

/-- `headerSize` in `init`/`Open`: `(capacity + 2) * 8` bytes for the
capacity word plus the `capacity+1` offset-table entries. -/
def headerSize (capacity : Nat) : Nat := (capacity + 2) * 8

/-- Error/outcome kinds of the storage operations.  The first four mirror
errors the Go code returns; `sliceOutOfRange` stands for a Go runtime panic
on out-of-range slice indexing; `fileClosed` stands for the I/O error of
writing to a closed file handle. -/
inductive StoreErr
  | outOfOrder
  | outOfBounds
  | notWritten
  | bufferTooSmall
  | sliceOutOfRange
  | fileClosed
deriving DecidableEq

/-- `NewFileStorage(root, id, capacity)` followed by `init`: the header is
mapped over the zero-filled fresh file, the capacity word is written, and
offset-table entry 0 is set to `headerSize` (start of message 0).  The file
handle is positioned at `headerSize`, i.e. at the end of the (empty) data
region. -/
def NewFileStorage (capacity : Nat) : FileStorage :=
  { capacity := capacity
    size := 0
    view := .mapped
    disk :=
      { capacityWord := capacity
        table := headerSize capacity :: List.replicate capacity 0
        data := [] } }

/-- `FileStorage.WriteMessage(index, data)`: reject out-of-order and
out-of-bounds indices (in that order, leaving the state unchanged), append
the payload to the file, set `index[index+1] = index[index] + len(data)`
(uint64 add), and increment `Size`.  Returns the (possibly updated) state
together with the Go error value. -/
def writeMessage (s : FileStorage) (i : Nat) (data : List Nat) :
    FileStorage × Option StoreErr :=
  if i ≠ s.size then (s, some .outOfOrder)
  else if s.capacity ≤ i then (s, some .outOfBounds)
  else
    match s.view with
    | .copied _ => (s, some .fileClosed)
    | .mapped =>
      match s.disk.table[i]? with
      | none => (s, some .sliceOutOfRange)
      | some bottom =>
        if i + 1 < s.disk.table.length then
          ({ s with
              size := s.size + 1
              disk :=
                { s.disk with
                    table := s.disk.table.set (i + 1) (add64 bottom data.length)
                    data := s.disk.data ++ data } }, none)
        else (s, some .sliceOutOfRange)

/-- `FileStorage.SizeOf(messageIndex)`: bounds checks (`NotWritten` before
`OutOfBounds`), then `index[messageIndex+1] - index[messageIndex]` (uint64
subtraction) read through the current index view. -/
def SizeOf (s : FileStorage) (i : Nat) : Except StoreErr Nat :=
  if s.size ≤ i then .error .notWritten
  else if s.capacity ≤ i then .error .outOfBounds
  else
    match (currentIndex s)[i + 1]?, (currentIndex s)[i]? with
    | some top, some bottom => .ok (sub64 top bottom)
    | _, _ => .error .sliceOutOfRange

/-- `FileStorage.ReaderAt(messageIndex)`: same bounds checks as `SizeOf`,
then a fresh read-only handle on the chunk's file seeked to
`index[messageIndex]`.  The returned reader is modelled by the seek
position; the handle refers to this chunk's on-disk file. -/
def ReaderAt (s : FileStorage) (i : Nat) : Except StoreErr Nat :=
  if s.size ≤ i then .error .notWritten
  else if s.capacity ≤ i then .error .outOfBounds
  else
    match (currentIndex s)[i]? with
    | some off => .ok off
    | none => .error .sliceOutOfRange

/-- 8 little-endian bytes of a `uint64` word. -/
def u64le (n : Nat) : List Nat := (List.range 8).map fun k => n / 256 ^ k % 256

/-- The header region of the file: capacity word followed by the offset
table, 8 bytes per word. -/
def headerBytes (cf : ChunkFile) : List Nat :=
  ((cf.capacityWord :: cf.table).map u64le).flatten

/-- The whole chunk file as a byte sequence: header region then data
region. -/
def fileBytes (cf : ChunkFile) : List Nat := headerBytes cf ++ cf.data

/-- Reading `n` bytes from a read-only handle on `cf` positioned at absolute
offset `pos`. -/
def readBytes (cf : ChunkFile) (pos n : Nat) : List Nat :=
  ((fileBytes cf).drop pos).take n

/-- `FileStorage.switchToReadOnly`: `make([]uint64, 0, capacity)` creates a
length-0 slice, so the subsequent `copy` copies nothing (`take 0` below);
the mapping is released and the writable handle closed, leaving the struct's
`index` as the (empty) copy.  The on-disk file is untouched. -/
def switchToReadOnly (s : FileStorage) : FileStorage :=
  { s with view := .copied ((currentIndex s).take 0) }

/-- `FileStorage.Close`: flush the header and data, unmap, close.  The
on-disk contents are exactly the state's file. -/
def closeChunk (s : FileStorage) : ChunkFile := s.disk

/-- The size-recovery scan of `Open`: the Go `for i, offset := range index`
loop over the full mapped array (capacity word included), returning the
position of the first zero entry. -/
def scanZero : List Nat → Nat → Option Nat
  | [], _ => none
  | x :: rest, i => if x = 0 then some i else scanZero rest (i + 1)

/-- `Open(root, id)`: read the capacity word, map the header, set the index
slice, recover `Size` as `uint64(i - 2)` for the first zero at position `i`
of the full array (0 when no zero is found), and treat a recovered 0 as a
full chunk (`Size = Capacity`).  The file handle is seeked to
`index[Size]`, the end of the data region for a cleanly closed file. -/
def OpenChunk (cf : ChunkFile) : FileStorage :=
  let fullIndex := cf.capacityWord :: cf.table
  let scanned :=
    match scanZero fullIndex 0 with
    | some i => (i + U64 - 2) % U64
    | none => 0
  let size := if scanned = 0 then cf.capacityWord else scanned
  { capacity := cf.capacityWord, size := size, view := .mapped, disk := cf }

/-- Write a sequence of payloads at consecutive ordinals starting at `i`,
stopping at the first error (the chunk-level call pattern of the tests and
of the Track writer for one chunk). -/
def writeSeq (s : FileStorage) (i : Nat) (msgs : List (List Nat)) :
    FileStorage × Option StoreErr :=
  match msgs with
  | [] => (s, none)
  | m :: rest =>
    match writeMessage s i m with
    | (s1, none) => writeSeq s1 (i + 1) rest
    | (s1, some e) => (s1, some e)

/-- A chunk built by `Create` followed by `WriteMessage` calls with payloads
`msgs` at ordinals `0, 1, …`. -/
def mkChunk (capacity : Nat) (msgs : List (List Nat)) :
    FileStorage × Option StoreErr :=
  writeSeq (NewFileStorage capacity) 0 msgs

/-! ## Track layer (src/unnamed/part_002)

`CHUNK_SIZE` is a mutable package-level variable in the source (500000 in
the main draft, 1000 in others, tunable per §6 of the design); it is passed
as the `cs` parameter below.  The single writer goroutine is serialized, so
its processing of the queued messages is modelled as a fold; `utils.Check`
panics (fatal to the writer) are modelled as `none`. -/

/-- In-memory `Track` state: the ordered chunk stores and the `alive` flag.
`id`/`rootPath` (file naming), the bounded channel and the condition
variable are the concurrency plumbing around this state. -/
structure Track where
  stores : List FileStorage
  alive : Bool
deriving DecidableEq

/-- `NewTrack`: empty store list, alive, writer spawned with start ordinal
0. -/
def newTrack : Track := { stores := [], alive := true }

/-- One iteration of the writer goroutine's loop for a received message
(`startWriter` in part_002): compute `chunkId = msgId / CHUNK_SIZE`; on
rollover switch the previous chunk to read-only and append a fresh chunk of
capacity `CHUNK_SIZE`; then `WriteMessage(msgId % CHUNK_SIZE, msg)` on the
target chunk, where any error is fatal (`utils.Check`), modelled as
`none`. -/
def writerStep (cs : Nat) (t : Track) (msgId : Nat) (msg : List Nat) :
    Option Track :=
  let chunkId := msgId / cs
  let t1 :=
    if chunkId = t.stores.length then
      let stores :=
        if 0 < chunkId then
          match t.stores[chunkId - 1]? with
          | some prev => t.stores.set (chunkId - 1) (switchToReadOnly prev)
          | none => t.stores
        else t.stores
      { t with stores := stores ++ [NewFileStorage cs] }
    else t
  match t1.stores[chunkId]? with
  | none => none
  | some st =>
    match writeMessage st (msgId % cs) msg with
    | (_, some _) => none
    | (st1, none) => some { t1 with stores := t1.stores.set chunkId st1 }

/-- The writer goroutine draining the queued payloads `msgs` starting at
ordinal `msgId`; returns the track state and the next ordinal, or `none` if
the writer panicked. -/
def writerRun (cs : Nat) (t : Track) (msgId : Nat) (msgs : List (List Nat)) :
    Option (Track × Nat) :=
  match msgs with
  | [] => some (t, msgId)
  | m :: rest =>
    match writerStep cs t msgId m with
    | none => none
    | some t1 => writerRun cs t1 (msgId + 1) rest

/-- After `Close` and `WaitForShutdown`, the chunk files `{id}0 … {id}(n-1)`
on disk: each store's flushed file contents (mmap stores and appends reach
the file). -/
def trackDisk (t : Track) : List ChunkFile := t.stores.map closeChunk

/-- `OpenTrack(root, id)` (part_002): open the consecutively numbered chunk
files (the disk model lists exactly those), then compute the writer's start
ordinal `nextId = len(stores)*CHUNK_SIZE + stores[len(stores)-1].Size` when
any store was opened, else 0.  Returns the track and the start ordinal the
writer is spawned with. -/
def openTrack (cs : Nat) (disk : List ChunkFile) : Track × Nat :=
  let stores := disk.map OpenChunk
  let nextId :=
    match stores.getLast? with
    | none => 0
    | some last => stores.length * cs + last.size
  ({ stores := stores, alive := true }, nextId)

/-- Outcomes of `Track.ReaderAt`: `oobReturn` is the returned
"Offset out of bounds" error; `fatal e` is a panic raised by `utils.Check`
on the chunk-level `ReaderAt` error `e`. -/
inductive TrackErr
  | oobReturn
  | fatal (e : StoreErr)
deriving DecidableEq

/-- A `StorageReader`: the next logical ordinal to read and the optional
per-chunk sub-reader, modelled as (chunk index, seek position) of the open
read-only handle on that chunk's file. -/
structure SReader where
  offset : Nat
  currentSub : Option (Nat × Nat)
deriving DecidableEq

/-- `Track.ReaderAt(offset)` (part_002): the `offset < 0` guard (always
false for a `uint64`), then a reader with a pre-opened sub-reader when the
chunk holding `offset` exists and its intra-chunk index is already
written. -/
def trackReaderAt (cs : Nat) (t : Track) (offset : Nat) :
    Except TrackErr SReader :=
  if offset < 0 then .error .oobReturn
  else
    let chunkIndex := offset / cs
    let msgIndex := offset % cs
    match t.stores[chunkIndex]? with
    | some st =>
      if msgIndex < st.size then
        match ReaderAt st msgIndex with
        | .ok pos => .ok { offset := offset, currentSub := some (chunkIndex, pos) }
        | .error e => .error (.fatal e)
      else .ok { offset := offset, currentSub := none }
    | none => .ok { offset := offset, currentSub := none }

/-- `StorageReader.handleRollover` (part_002): on a chunk boundary, open a
sub-reader at message 0 of the next chunk when it exists (clearing the
sub-reader if that fails), otherwise clear the sub-reader. -/
def handleRollover (cs : Nat) (t : Track) (r : SReader) : SReader :=
  if r.offset % cs = 0 then
    match t.stores[r.offset / cs]? with
    | some st =>
      match ReaderAt st 0 with
      | .ok pos => { r with currentSub := some (r.offset / cs, pos) }
      | .error _ => { r with currentSub := none }
    | none => { r with currentSub := none }
  else r

/-- Outcome of one `StorageReader.Read` call: `eof` is the `(-1, EOF)`
return on a dead track; `blocked` marks the states in which the Go code
waits on `dataCond` (sub-reader absent, chunk not yet created, or ordinal
not yet written); `sizeErr`/`bufErr` are the returned errors (0 bytes, the
reader unchanged); `fatal` is a `utils.Check` panic; `delivered bytes r1`
returns `(bytes.length, nil)` with `bytes` copied into the buffer's prefix
and `r1` the advanced reader. -/
inductive ReadResult
  | eof
  | blocked
  | sizeErr (e : StoreErr) (r : SReader)
  | bufErr (r : SReader)
  | fatal (e : StoreErr)
  | delivered (bytes : List Nat) (r : SReader)
deriving DecidableEq

/-- `StorageReader.Read(p)` (part_002) on the non-blocking path: EOF on a
dead parent; wait while no data is available; `SizeOf` the next message; a
message larger than the buffer fails with the buffer-too-small error (0
bytes, offset unchanged); otherwise read exactly `nextSize` bytes from the
sub-reader's handle, advance the offset, and handle rollover. -/
def readStep (cs : Nat) (t : Track) (r : SReader) (bufLen : Nat) :
    ReadResult :=
  if t.alive = false then .eof
  else
    let chunkId := r.offset / cs
    let inner := r.offset % cs
    match r.currentSub with
    | none => .blocked
    | some (subIdx, pos) =>
      match t.stores[chunkId]? with
      | none => .blocked
      | some st =>
        if st.size ≤ inner then .blocked
        else
          match SizeOf st inner with
          | .error e => .sizeErr e r
          | .ok nextSize =>
            if bufLen < nextSize then .bufErr r
            else
              match t.stores[subIdx]? with
              | none => .fatal .sliceOutOfRange
              | some subStore =>
                let bytes := readBytes subStore.disk pos nextSize
                let r1 : SReader :=
                  { offset := r.offset + 1
                    currentSub := some (subIdx, pos + bytes.length) }
                .delivered bytes (handleRollover cs t r1)

/-- Repeatedly call `Read` (the consuming loops of the tests), collecting
the delivered messages; stops on any non-delivery outcome or when the fuel
runs out. -/
def readLoop (cs : Nat) (t : Track) (r : SReader) (bufLen : Nat) :
    Nat → List (List Nat)
  | 0 => []
  | fuel + 1 =>
    match readStep cs t r bufLen with
    | .delivered bytes r1 => bytes :: readLoop cs t r1 bufLen fuel
    | _ => []

/-! ## Characterization of chunk states built by `Create` + `WriteMessage` -/

/-- Total byte length of the first `j` payloads. -/
def prefixLen (msgs : List (List Nat)) (j : Nat) : Nat :=
  ((msgs.take j).flatten).length

/-- The offset table of a chunk of capacity `cap` holding exactly the
payloads `msgs`: entry `j ≤ k` is `H + Σ_{p<j} len(msgs_p)`, entries beyond
`k` are still zero. -/
def tableOf (cap : Nat) (msgs : List (List Nat)) : List Nat :=
  (List.range (cap + 1)).map fun j =>
    if j ≤ msgs.length then headerSize cap + prefixLen msgs j else 0

/-- The chunk state after `Create(cap)` and writing `msgs` at ordinals
`0 … k-1`. -/
def chunkState (cap : Nat) (msgs : List (List Nat)) : FileStorage :=
  { capacity := cap
    size := msgs.length
    view := .mapped
    disk := { capacityWord := cap, table := tableOf cap msgs, data := msgs.flatten } }

lemma tableOf_length (cap : Nat) (msgs : List (List Nat)) :
    (tableOf cap msgs).length = cap + 1 := by
  simp [tableOf]

lemma tableOf_getElem? (cap : Nat) (msgs : List (List Nat)) {j : Nat}
    (hj : j ≤ cap) :
    (tableOf cap msgs)[j]? =
      some (if j ≤ msgs.length then headerSize cap + prefixLen msgs j else 0) := by
  simp only [tableOf, List.getElem?_map, List.getElem?_range (Nat.lt_succ_of_le hj),
    Option.map_some']

lemma prefixLen_le (msgs : List (List Nat)) (j : Nat) :
    prefixLen msgs j ≤ msgs.flatten.length := by
  conv_rhs => rw [← List.take_append_drop j msgs]
  rw [List.flatten_append, List.length_append, prefixLen]
  exact Nat.le_add_right _ _

lemma prefixLen_append_left (pre : List (List Nat)) (post : List (List Nat))
    {j : Nat} (hj : j ≤ pre.length) :
    prefixLen (pre ++ post) j = prefixLen pre j := by
  rw [prefixLen, prefixLen, List.take_append_of_le_length hj]

lemma prefixLen_length (msgs : List (List Nat)) :
    prefixLen msgs msgs.length = msgs.flatten.length := by
  rw [prefixLen, List.take_length]

lemma prefixLen_succ (msgs : List (List Nat)) {i : Nat} (hi : i < msgs.length) :
    prefixLen msgs (i + 1) = prefixLen msgs i + msgs[i].length := by
  rw [prefixLen, prefixLen, List.take_succ, List.flatten_append,
    List.length_append, List.getElem?_eq_getElem hi]
  simp

lemma chunkState_nil (cap : Nat) : chunkState cap [] = NewFileStorage cap := by
  have htab : tableOf cap [] = headerSize cap :: List.replicate cap 0 := by
    rw [tableOf, List.range_succ_eq_map, List.map_cons, List.map_map]
    simp [prefixLen, Function.comp_def]
  simp [chunkState, NewFileStorage, htab]

lemma writeMessage_chunkState (cap : Nat) (pre : List (List Nat))
    (m : List Nat) (hlt : pre.length < cap)
    (hnw : headerSize cap + (pre.flatten.length + m.length) < U64) :
    writeMessage (chunkState cap pre) pre.length m =
      (chunkState cap (pre ++ [m]), none) := by
  have hbot : (tableOf cap pre)[pre.length]? =
      some (headerSize cap + pre.flatten.length) := by
    rw [tableOf_getElem? cap pre (Nat.le_of_lt hlt), if_pos (Nat.le_refl _),
      prefixLen_length]
  have hval : add64 (headerSize cap + pre.flatten.length) m.length =
      headerSize cap + pre.flatten.length + m.length := by
    rw [add64]
    exact Nat.mod_eq_of_lt (by omega)
  have hset : (tableOf cap pre).set (pre.length + 1)
      (headerSize cap + pre.flatten.length + m.length) =
      tableOf cap (pre ++ [m]) := by
    apply List.ext_getElem?
    intro n
    rcases Nat.lt_or_ge n (cap + 1) with hn | hn
    · rcases eq_or_ne n (pre.length + 1) with rfl | hne
      · rw [List.getElem?_set_self (by rw [tableOf_length]; omega),
          tableOf_getElem? cap (pre ++ [m]) (by omega)]
        have : pre.length + 1 ≤ (pre ++ [m]).length := by simp
        rw [if_pos this]
        have : prefixLen (pre ++ [m]) (pre.length + 1) =
            pre.flatten.length + m.length := by
          have h1 : pre.length + 1 = (pre ++ [m]).length := by simp
          rw [h1, prefixLen_length, List.flatten_append]
          simp
        rw [this, Nat.add_assoc]
      · rw [List.getElem?_set_ne (Ne.symm hne),
          tableOf_getElem? cap pre (by omega),
          tableOf_getElem? cap (pre ++ [m]) (by omega)]
        rcases Nat.lt_or_ge pre.length n with hgt | hle
        · have hn1 : ¬ n ≤ pre.length := by omega
          have hn2 : ¬ n ≤ (pre ++ [m]).length := by
            simp only [List.length_append, List.length_cons, List.length_nil]
            omega
          rw [if_neg hn1, if_neg hn2]
        · have hn2 : n ≤ (pre ++ [m]).length := by simp; omega
          rw [if_pos hle, if_pos hn2, prefixLen_append_left pre [m] hle]
    · rw [List.getElem?_eq_none, List.getElem?_eq_none]
      · rw [tableOf_length]; omega
      · rw [List.length_set, tableOf_length]; omega
  have hsz : ¬ (pre.length ≠ (chunkState cap pre).size) := by
    simp [chunkState]
  have hcap : ¬ (cap ≤ pre.length) := by omega
  rw [writeMessage, if_neg hsz]
  simp only [chunkState] at *
  rw [if_neg hcap]
  simp only [hbot, hval]
  rw [if_pos (by rw [tableOf_length]; omega)]
  simp only [hset, Prod.mk.injEq]
  constructor
  · congr 1
    · simp
    · congr 1
      simp [List.flatten_append]
  · trivial

lemma writeSeq_chunkState (cap : Nat) (msgs : List (List Nat)) :
    ∀ pre : List (List Nat), pre.length + msgs.length ≤ cap →
    headerSize cap + (pre.flatten.length + msgs.flatten.length) < U64 →
    writeSeq (chunkState cap pre) pre.length msgs =
      (chunkState cap (pre ++ msgs), none) := by
  induction msgs with
  | nil => intro pre _ _; simp [writeSeq]
  | cons m rest ih =>
    intro pre hlen hnw
    have hflat : (m :: rest).flatten.length = m.length + rest.flatten.length := by
      simp
    have h1 : pre.length + 1 = (pre ++ [m]).length := by simp
    have h2 := ih (pre ++ [m])
      (by simp only [List.length_append, List.length_cons, List.length_nil]
          simp at hlen ⊢; omega)
      (by simp only [List.flatten_append] at *
          simp at hnw ⊢; omega)
    rw [writeSeq, writeMessage_chunkState cap pre m (by simp at hlen; omega)
      (by rw [hflat] at hnw; omega)]
    show writeSeq (chunkState cap (pre ++ [m])) (pre.length + 1) rest =
      (chunkState cap (pre ++ m :: rest), none)
    rw [h1, h2]
    simp [List.append_assoc]

/-- A chunk of capacity `cap` after `k = msgs.length ≤ cap` successful
writes is exactly `chunkState cap msgs` (no error occurred), provided the
offsets fit in a `uint64` — true of any physically writable file. -/
theorem mkChunk_eq (cap : Nat) (msgs : List (List Nat))
    (hlen : msgs.length ≤ cap)
    (hnw : headerSize cap + msgs.flatten.length < U64) :
    mkChunk cap msgs = (chunkState cap msgs, none) := by
  have := writeSeq_chunkState cap msgs [] (by simpa using hlen)
    (by simpa using hnw)
  rw [mkChunk, ← chunkState_nil cap]
  simpa using this

/-! ## Supporting lemmas about reads on characterized chunk states -/

lemma sub64_eq {a b : Nat} (hba : b ≤ a) (ha : a < U64) : sub64 a b = a - b := by
  rw [sub64]
  have h : a + U64 - b = a - b + U64 := by omega
  rw [h, Nat.add_mod_right]
  exact Nat.mod_eq_of_lt (by omega)

lemma currentIndex_chunkState (cap : Nat) (msgs : List (List Nat)) :
    currentIndex (chunkState cap msgs) = tableOf cap msgs := rfl

lemma SizeOf_chunkState (cap : Nat) (msgs : List (List Nat))
    (hlen : msgs.length ≤ cap)
    (hnw : headerSize cap + msgs.flatten.length < U64)
    {i : Nat} (hi : i < msgs.length) :
    SizeOf (chunkState cap msgs) i = .ok (msgs[i].length) := by
  have hi1 : i + 1 ≤ cap := by omega
  have htop : (tableOf cap msgs)[i + 1]? =
      some (headerSize cap + prefixLen msgs (i + 1)) := by
    rw [tableOf_getElem? cap msgs hi1, if_pos (by omega)]
  have hbot : (tableOf cap msgs)[i]? =
      some (headerSize cap + prefixLen msgs i) := by
    rw [tableOf_getElem? cap msgs (by omega), if_pos (by omega)]
  have hmono := prefixLen_succ msgs hi
  have hle := prefixLen_le msgs (i + 1)
  rw [SizeOf, if_neg (by simp [chunkState]; omega), if_neg (by simp [chunkState]; omega)]
  rw [currentIndex_chunkState] at *
  simp only [currentIndex_chunkState, htop, hbot]
  rw [sub64_eq (by omega) (by omega)]
  congr 1
  omega

lemma ReaderAt_chunkState (cap : Nat) (msgs : List (List Nat))
    (hlen : msgs.length ≤ cap)
    {i : Nat} (hi : i < msgs.length) :
    ReaderAt (chunkState cap msgs) i =
      .ok (headerSize cap + prefixLen msgs i) := by
  have hbot : (tableOf cap msgs)[i]? =
      some (headerSize cap + prefixLen msgs i) := by
    rw [tableOf_getElem? cap msgs (by omega), if_pos (by omega)]
  rw [ReaderAt, if_neg (by simp [chunkState]; omega), if_neg (by simp [chunkState]; omega)]
  simp only [currentIndex_chunkState, hbot]

lemma headerBytes_length (cf : ChunkFile) :
    (headerBytes cf).length = (cf.table.length + 1) * 8 := by
  rw [headerBytes, List.length_flatten, List.map_map]
  have h : (List.length ∘ u64le) = fun _ : Nat => 8 := by
    funext n
    simp [u64le]
  rw [h]
  rw [show (fun _ : Nat => 8) = Function.const Nat 8 from rfl, List.map_const,
    List.sum_replicate]
  simp [Nat.mul_comm]

lemma flatten_decomp (msgs : List (List Nat)) {i : Nat} (hi : i < msgs.length) :
    msgs.flatten =
      (msgs.take i).flatten ++ (msgs[i] ++ (msgs.drop (i + 1)).flatten) := by
  calc msgs.flatten = (msgs.take i ++ msgs.drop i).flatten := by
        rw [List.take_append_drop]
    _ = (msgs.take i).flatten ++ (msgs.drop i).flatten :=
        List.flatten_append _ _
    _ = (msgs.take i).flatten ++ (msgs[i] ++ (msgs.drop (i + 1)).flatten) := by
        rw [List.drop_eq_getElem_cons hi, List.flatten_cons]

lemma readBytes_chunkState (cap : Nat) (msgs : List (List Nat))
    {i : Nat} (hi : i < msgs.length) :
    readBytes (chunkState cap msgs).disk
      (headerSize cap + prefixLen msgs i) (msgs[i].length) = msgs[i] := by
  have hh : (headerBytes (chunkState cap msgs).disk).length = headerSize cap := by
    rw [headerBytes_length]
    simp only [chunkState, tableOf_length, headerSize]
  rw [readBytes, fileBytes]
  have hdrop : ((headerBytes (chunkState cap msgs).disk ++
      (chunkState cap msgs).disk.data).drop
        (headerSize cap + prefixLen msgs i)) =
      (msgs.flatten.drop (prefixLen msgs i)) := by
    rw [← hh, List.drop_append_eq_append_drop]
    have h1 : (headerBytes (chunkState cap msgs).disk).length ≤
        (headerBytes (chunkState cap msgs).disk).length + prefixLen msgs i :=
      Nat.le_add_right _ _
    rw [List.drop_eq_nil_of_le h1, List.nil_append]
    congr 1
    · omega
  rw [hdrop]
  conv_lhs => rw [flatten_decomp msgs hi]
  rw [show prefixLen msgs i = ((msgs.take i).flatten).length from rfl,
    List.drop_left, List.take_left]

/-! ## Claim theorems: Chunk layer -/

/-- C1: for every chunk built by `Create` followed by successful
`WriteMessage` calls with payloads `data_0 … data_{size-1}` and every
`i < size`, `ReaderAt(i)` succeeds, and reading `SizeOf(i)` bytes from the
returned (seeked) reader yields exactly the bytes `data_i` written at
ordinal `i`.  The side conditions say the writes were all accepted
(`msgs.length ≤ cap`) and the file offsets fit in a `uint64`. -/
theorem C1_reader_returns_written_bytes (cap : Nat) (msgs : List (List Nat))
    (hlen : msgs.length ≤ cap)
    (hnw : headerSize cap + msgs.flatten.length < U64)
    (i : Nat) (hi : i < msgs.length) :
    ∃ pos, ReaderAt (mkChunk cap msgs).1 i = .ok pos ∧
      ∃ n, SizeOf (mkChunk cap msgs).1 i = .ok n ∧
        readBytes (mkChunk cap msgs).1.disk pos n = msgs[i] := by
  rw [mkChunk_eq cap msgs hlen hnw]
  exact ⟨headerSize cap + prefixLen msgs i,
    ReaderAt_chunkState cap msgs hlen hi,
    msgs[i].length,
    SizeOf_chunkState cap msgs hlen hnw hi,
    readBytes_chunkState cap msgs hi⟩

/-- Witness for C1 at a concrete chunk: capacity 2, payloads
`[1,2]` and `[3]`, reading ordinal 1. -/
theorem C1_witness :
    ∃ pos, ReaderAt (mkChunk 2 [[1, 2], [3]]).1 1 = .ok pos ∧
      ∃ n, SizeOf (mkChunk 2 [[1, 2], [3]]).1 1 = .ok n ∧
        readBytes (mkChunk 2 [[1, 2], [3]]).1.disk pos n = [3] :=
  C1_reader_returns_written_bytes 2 [[1, 2], [3]] (by decide) (by decide) 1
    (by decide)

/-- C7: after `k ≤ C` successful `WriteMessage` calls on a fresh chunk,
no call failed, `size = k`, `offsetTable[k] = H + Σ len(data_i)`, and for
every `i < k`, `SizeOf(i)` succeeds with `len(data_i)`
(`= offsetTable[i+1] - offsetTable[i]`). -/
theorem C7_sizes_and_final_offset (cap : Nat) (msgs : List (List Nat))
    (hlen : msgs.length ≤ cap)
    (hnw : headerSize cap + msgs.flatten.length < U64) :
    (mkChunk cap msgs).2 = none ∧
    (mkChunk cap msgs).1.size = msgs.length ∧
    (currentIndex (mkChunk cap msgs).1)[msgs.length]? =
      some (headerSize cap + msgs.flatten.length) ∧
    ∀ i (hi : i < msgs.length),
      SizeOf (mkChunk cap msgs).1 i = .ok (msgs[i].length) := by
  rw [mkChunk_eq cap msgs hlen hnw]
  refine ⟨rfl, rfl, ?_, fun i hi => SizeOf_chunkState cap msgs hlen hnw hi⟩
  rw [currentIndex_chunkState, tableOf_getElem? cap msgs hlen,
    if_pos (Nat.le_refl _), prefixLen_length]

/-- Witness for C7 at a concrete chunk: capacity 3, payloads
`[1,2]` and `[3]`. -/
theorem C7_witness :
    (mkChunk 3 [[1, 2], [3]]).2 = none ∧
    (mkChunk 3 [[1, 2], [3]]).1.size = 2 ∧
    (currentIndex (mkChunk 3 [[1, 2], [3]]).1)[2]? = some (43) ∧
    ∀ i (hi : i < ([[1, 2], [3]] : List (List Nat)).length),
      SizeOf (mkChunk 3 [[1, 2], [3]]).1 i =
        .ok (([[1, 2], [3]] : List (List Nat))[i].length) :=
  C7_sizes_and_final_offset 3 [[1, 2], [3]] (by decide) (by decide)

/-- The header invariants C6 claims for every reachable chunk state with
payloads `msgs`: `offsetTable[0] = H`, strict growth by exactly the payload
length at each written ordinal, zeros past `size`, and the capacity word
matching the in-memory capacity. -/
def chunkInvariants (s : FileStorage) (msgs : List (List Nat)) : Prop :=
  (currentIndex s)[0]? = some (headerSize s.capacity) ∧
  (∀ i (hi : i < msgs.length), ∃ a b,
      (currentIndex s)[i]? = some a ∧ (currentIndex s)[i + 1]? = some b ∧
      a < b ∧ b - a = msgs[i].length) ∧
  (∀ i, s.size < i → i ≤ s.capacity → (currentIndex s)[i]? = some 0) ∧
  s.disk.capacityWord = s.capacity

/-- C6 as stated is false: the empty payload is accepted by `WriteMessage`
(which returns no error), and it leaves `offsetTable[1] = offsetTable[0]`,
violating the claimed strict inequality. -/
theorem C6_counterexample :
    (mkChunk 1 [[]]).2 = none ∧ ¬ chunkInvariants (mkChunk 1 [[]]).1 [[]] := by
  refine ⟨by decide, fun h => ?_⟩
  obtain ⟨-, h2, -, -⟩ := h
  obtain ⟨a, b, ha, hb, hab, -⟩ := h2 0 (by decide)
  rw [show (currentIndex (mkChunk 1 [[]]).1)[0]? = some 24 from by decide] at ha
  rw [show (currentIndex (mkChunk 1 [[]]).1)[0 + 1]? = some 24 from by decide] at hb
  injection ha with ha1
  injection hb with hb1
  omega

/-- C6 amended: the header invariants hold for every chunk state reachable
from `Create` by successful `WriteMessage` calls whose payloads are all
nonempty (zero-length payloads make consecutive offsets equal rather than
strictly increasing). -/
theorem C6_header_invariants (cap : Nat) (msgs : List (List Nat))
    (hlen : msgs.length ≤ cap)
    (hnw : headerSize cap + msgs.flatten.length < U64)
    (hne : ∀ m ∈ msgs, m ≠ []) :
    chunkInvariants (mkChunk cap msgs).1 msgs := by
  rw [mkChunk_eq cap msgs hlen hnw]
  refine ⟨?_, fun i hi => ?_, fun i hsz hcap => ?_, rfl⟩
  · rw [currentIndex_chunkState]
    show (tableOf cap msgs)[0]? = some (headerSize cap)
    rw [tableOf_getElem? cap msgs (Nat.zero_le _), if_pos (Nat.zero_le _)]
    simp [prefixLen]
  · refine ⟨headerSize cap + prefixLen msgs i,
      headerSize cap + prefixLen msgs (i + 1), ?_, ?_, ?_, ?_⟩
    · rw [currentIndex_chunkState, tableOf_getElem? cap msgs (by omega),
        if_pos (by omega)]
    · rw [currentIndex_chunkState, tableOf_getElem? cap msgs (by omega),
        if_pos (by omega)]
    · have hpos : 0 < msgs[i].length :=
        List.length_pos.mpr (hne msgs[i] (List.getElem_mem hi))
      have := prefixLen_succ msgs hi
      omega
    · have := prefixLen_succ msgs hi
      omega
  · rw [currentIndex_chunkState]
    have hsz' : msgs.length < i := hsz
    rw [tableOf_getElem? cap msgs hcap, if_neg (by omega)]

/-- Witness for the amended C6 at a concrete chunk: capacity 3, payloads
`[1,2]` and `[3]`. -/
theorem C6_witness : chunkInvariants (mkChunk 3 [[1, 2], [3]]).1 [[1, 2], [3]] :=
  C6_header_invariants 3 [[1, 2], [3]] (by decide) (by decide)
    (by intro m hm; fin_cases hm <;> simp)

/-- C8: on a reachable chunk, `WriteMessage(index, data)` fails with
OutOfOrder when `index ≠ size` (returning the state unchanged), fails with
OutOfBounds when `index = size` but `index ≥ capacity` (state unchanged),
and succeeds otherwise. -/
theorem C8_writeMessage_guards (cap : Nat) (msgs : List (List Nat))
    (hlen : msgs.length ≤ cap)
    (hnw : headerSize cap + msgs.flatten.length < U64)
    (i : Nat) (data : List Nat) :
    (i ≠ (mkChunk cap msgs).1.size →
      writeMessage (mkChunk cap msgs).1 i data =
        ((mkChunk cap msgs).1, some .outOfOrder)) ∧
    (i = (mkChunk cap msgs).1.size → cap ≤ i →
      writeMessage (mkChunk cap msgs).1 i data =
        ((mkChunk cap msgs).1, some .outOfBounds)) ∧
    (i = (mkChunk cap msgs).1.size → i < cap →
      (writeMessage (mkChunk cap msgs).1 i data).2 = none) := by
  have hmk : (mkChunk cap msgs).1 = chunkState cap msgs := by
    rw [mkChunk_eq cap msgs hlen hnw]
  rw [hmk]
  refine ⟨fun hne => ?_, fun heq hcap => ?_, fun heq hcap => ?_⟩
  · rw [writeMessage, if_pos hne]
  · rw [writeMessage, if_neg (not_ne_iff.mpr heq),
      if_pos (show (chunkState cap msgs).capacity ≤ i from hcap)]
  · have heq' : i = msgs.length := heq
    subst heq'
    have hlt : msgs.length < cap := hcap
    have hbot : (tableOf cap msgs)[msgs.length]? =
        some (headerSize cap + prefixLen msgs msgs.length) := by
      rw [tableOf_getElem? cap msgs (by omega), if_pos (Nat.le_refl _)]
    rw [writeMessage, if_neg (not_ne_iff.mpr heq),
      if_neg (show ¬ (chunkState cap msgs).capacity ≤ msgs.length from
        Nat.not_le.mpr hlt)]
    simp only [chunkState]
    rw [hbot]
    have hlen2 : msgs.length + 1 < (tableOf cap msgs).length := by
      rw [tableOf_length]
      omega
    simp [hlen2]

/-- Witness for C8 at a concrete chunk: capacity 1 holding one payload, so
index 0 is out of order and index 1 is out of bounds. -/
theorem C8_witness :
    (0 ≠ (mkChunk 1 [[5]]).1.size →
      writeMessage (mkChunk 1 [[5]]).1 0 [7] =
        ((mkChunk 1 [[5]]).1, some .outOfOrder)) ∧
    (0 = (mkChunk 1 [[5]]).1.size → 1 ≤ 0 →
      writeMessage (mkChunk 1 [[5]]).1 0 [7] =
        ((mkChunk 1 [[5]]).1, some .outOfBounds)) ∧
    (0 = (mkChunk 1 [[5]]).1.size → 0 < 1 →
      (writeMessage (mkChunk 1 [[5]]).1 0 [7]).2 = none) :=
  C8_writeMessage_guards 1 [[5]] (by decide) (by decide) 0 [7]

/-! ## Claim theorems: chunk persistence (C4) and the read-only transition (C5) -/

lemma scanZero_eq_none (l : List Nat) (i : Nat) (h : ∀ x ∈ l, x ≠ 0) :
    scanZero l i = none := by
  induction l generalizing i with
  | nil => rfl
  | cons x rest ih =>
    rw [scanZero, if_neg (h x (by simp))]
    exact ih (i + 1) fun y hy => h y (by simp [hy])

lemma scanZero_eq_some (l : List Nat) (i j : Nat) (hj : l[j]? = some 0)
    (hbefore : ∀ p, p < j → ∀ x, l[p]? = some x → x ≠ 0) :
    scanZero l i = some (i + j) := by
  induction l generalizing i j with
  | nil => simp at hj
  | cons x rest ih =>
    cases j with
    | zero =>
      simp only [List.getElem?_cons_zero, Option.some.injEq] at hj
      rw [scanZero, if_pos hj]
      simp
    | succ j1 =>
      have hx : x ≠ 0 := hbefore 0 (Nat.succ_pos _) x (by simp)
      rw [scanZero, if_neg hx]
      have := ih (i + 1) j1 (by simpa using hj)
        fun p hp y hy => hbefore (p + 1) (by omega) y (by simpa using hy)
      rw [this]
      congr 1
      omega

/-- Counterexample to C4 as stated (`0 ≤ k`): a fresh capacity-10 chunk
with `k = 0` messages has size 0, but closing and reopening it recovers
size 10 = capacity, because `Open` conflates the recovered size 0 (first
zero at offset-table index 1) with "no zero found". -/
theorem C4_counterexample :
    (mkChunk 10 []).2 = none ∧ (mkChunk 10 []).1.size = 0 ∧
      (OpenChunk (closeChunk (mkChunk 10 []).1)).size = 10 := by
  decide

/-- C4 amended (`1 ≤ k ≤ C`): for a chunk holding at least one message,
Close followed by Open reconstructs the chunk state exactly — capacity,
size and all message contents are preserved; the size is recovered from
the first zero entry of the offset table at index `j ≥ 2` as `j - 1`, or
as `capacity` when the table has no zero (full chunk). -/
theorem C4_close_open_roundtrip (cap : Nat) (msgs : List (List Nat))
    (hne : msgs ≠ []) (hlen : msgs.length ≤ cap)
    (hnw : headerSize cap + msgs.flatten.length < U64) :
    OpenChunk (closeChunk (mkChunk cap msgs).1) = (mkChunk cap msgs).1 := by
  have hmk : (mkChunk cap msgs).1 = chunkState cap msgs := by
    rw [mkChunk_eq cap msgs hlen hnw]
  rw [hmk]
  have hk1 : 1 ≤ msgs.length := List.length_pos.mpr hne
  have hcap1 : 1 ≤ cap := le_trans hk1 hlen
  have hcapU : cap < U64 := by
    have : cap ≤ headerSize cap := by rw [headerSize]; omega
    omega
  -- the full mapped array scanned by Open: capacity word, then the table
  have htab : ∀ j, j ≤ cap →
      (tableOf cap msgs)[j]? =
        some (if j ≤ msgs.length then headerSize cap + prefixLen msgs j else 0) :=
    fun j hj => tableOf_getElem? cap msgs hj
  have hfull0 : (cap :: tableOf cap msgs)[0]? = some cap := by simp
  have hfullS : ∀ p, (cap :: tableOf cap msgs)[p + 1]? = (tableOf cap msgs)[p]? :=
    fun p => by simp
  have hnzfilled : ∀ p, p < msgs.length + 2 → ∀ x,
      (cap :: tableOf cap msgs)[p]? = some x → x ≠ 0 := by
    intro p hp x hx
    cases p with
    | zero =>
      rw [hfull0] at hx
      injection hx with hx1
      omega
    | succ p1 =>
      rw [hfullS p1, htab p1 (by omega), if_pos (by omega)] at hx
      injection hx with hx1
      have : 0 < headerSize cap := by rw [headerSize]; omega
      omega
  rcases Nat.lt_or_ge msgs.length cap with hlt | hge
  · -- partial chunk: the first zero sits at table index k+1, array index k+2
    have hzero : (cap :: tableOf cap msgs)[msgs.length + 2]? = some 0 := by
      rw [hfullS (msgs.length + 1), htab (msgs.length + 1) (by omega),
        if_neg (by omega)]
    have hscan : scanZero (cap :: tableOf cap msgs) 0 =
        some (msgs.length + 2) := by
      have h0 := scanZero_eq_some (cap :: tableOf cap msgs) 0 (msgs.length + 2)
        hzero hnzfilled
      simpa using h0
    rw [OpenChunk]
    show (let scanned := match scanZero (cap :: tableOf cap msgs) 0 with
            | some i => (i + U64 - 2) % U64
            | none => 0
          let size := if scanned = 0 then cap else scanned
          ({ capacity := cap, size := size, view := .mapped,
             disk := (chunkState cap msgs).disk } : FileStorage)) =
        chunkState cap msgs
    rw [hscan]
    show ({ capacity := cap,
            size := if (msgs.length + 2 + U64 - 2) % U64 = 0 then cap
              else (msgs.length + 2 + U64 - 2) % U64,
            view := .mapped, disk := (chunkState cap msgs).disk } : FileStorage) =
      chunkState cap msgs
    have hmod : (msgs.length + 2 + U64 - 2) % U64 = msgs.length := by
      have h1 : msgs.length + 2 + U64 - 2 = msgs.length + U64 := by omega
      rw [h1, Nat.add_mod_right]
      exact Nat.mod_eq_of_lt (by omega)
    rw [hmod, if_neg (by omega)]
    rfl
  · -- full chunk: no zero anywhere, size falls back to the capacity word
    have hkcap : msgs.length = cap := le_antisymm hlen hge
    have hnz : ∀ x ∈ cap :: tableOf cap msgs, x ≠ 0 := by
      intro x hx
      rcases List.mem_iff_getElem?.mp hx with ⟨p, hp⟩
      have hplen : p < msgs.length + 2 := by
        have := List.getElem?_eq_some_iff.mp hp
        rcases this with ⟨hlt2, -⟩
        simp only [List.length_cons, tableOf_length] at hlt2
        omega
      exact hnzfilled p hplen x hp
    have hscan : scanZero (cap :: tableOf cap msgs) 0 = none :=
      scanZero_eq_none _ 0 hnz
    rw [OpenChunk]
    show (let scanned := match scanZero (cap :: tableOf cap msgs) 0 with
            | some i => (i + U64 - 2) % U64
            | none => 0
          let size := if scanned = 0 then cap else scanned
          ({ capacity := cap, size := size, view := .mapped,
             disk := (chunkState cap msgs).disk } : FileStorage)) =
        chunkState cap msgs
    rw [hscan]
    show ({ capacity := cap, size := if (0 : Nat) = 0 then cap else 0,
            view := .mapped, disk := (chunkState cap msgs).disk } : FileStorage) =
      chunkState cap msgs
    rw [if_pos rfl]
    show ({ capacity := cap, size := cap, view := .mapped,
            disk := (chunkState cap msgs).disk } : FileStorage) = chunkState cap msgs
    rw [chunkState, hkcap]

/-- Witness for the amended C4: a capacity-3 chunk holding `[5]` and
`[6,6]` survives the Close/Open round-trip unchanged. -/
theorem C4_witness :
    OpenChunk (closeChunk (mkChunk 3 [[5], [6, 6]]).1) = (mkChunk 3 [[5], [6, 6]]).1 :=
  C4_close_open_roundtrip 3 [[5], [6, 6]] (by decide) (by decide) (by decide)

/-- C5 fails on the code: on the full capacity-1 chunk holding the message
`[7]`, reads work before the read-only transition (`SizeOf(0) = 1`,
`ReaderAt(0)` seeks to offset 24), but after `switchToReadOnly` both panic
with an out-of-range slice index: the transition's
`make([]uint64, 0, capacity)` destination has length 0, so its `copy`
copies no offsets at all. -/
theorem C5_switchToReadOnly_breaks_reads :
    (mkChunk 1 [[7]]).1.size = (mkChunk 1 [[7]]).1.capacity ∧
    SizeOf (mkChunk 1 [[7]]).1 0 = .ok 1 ∧
    ReaderAt (mkChunk 1 [[7]]).1 0 = .ok 24 ∧
    SizeOf (switchToReadOnly (mkChunk 1 [[7]]).1) 0 = .error .sliceOutOfRange ∧
    ReaderAt (switchToReadOnly (mkChunk 1 [[7]]).1) 0 = .error .sliceOutOfRange := by
  decide

/-! ## Claim theorems: Track layer -/

lemma currentIndex_of_mapped {s : FileStorage} (h : s.view = .mapped) :
    currentIndex s = s.disk.table := by
  rw [currentIndex, h]

lemma ReaderAt_ok_of_wf {st : FileStorage} {i : Nat} (hview : st.view = .mapped)
    (hi : i < st.size) (hsc : st.size ≤ st.capacity)
    (htl : st.disk.table.length = st.capacity + 1) :
    ∃ pos, ReaderAt st i = .ok pos := by
  have hlt : i < st.disk.table.length := by rw [htl]; omega
  have hidx : ∃ v, (currentIndex st)[i]? = some v := by
    rw [currentIndex_of_mapped hview]
    exact ⟨_, List.getElem?_eq_getElem hlt⟩
  obtain ⟨v, hv⟩ := hidx
  rw [ReaderAt, if_neg (Nat.not_le.mpr hi),
    if_neg (Nat.not_le.mpr (lt_of_lt_of_le hi hsc)), hv]
  exact ⟨v, rfl⟩

/-- C2 fails on the code at its writer-ordinal conjunct, shown on a
concrete run with `CHUNK_SIZE = 2` and the three messages `[5], [6,6],
[7]`: the writer stores all three and assigns ordinals 0, 1, 2; after
reopening from the chunk files, a reader from offset 0 does return the
complete original sequence, but `OpenTrack` spawns the writer at start
ordinal `len(stores)*CHUNK_SIZE + last.Size = 2*2 + 1 = 5`, not at 3, the
number of messages already stored. -/
theorem C2_roundtrip_readback_but_wrong_next_ordinal :
    ((writerRun 2 newTrack 0 [[5], [6, 6], [7]]).bind fun p =>
        ((trackReaderAt 2 (openTrack 2 (trackDisk p.1)).1 0).toOption.map fun r =>
          (readLoop 2 (openTrack 2 (trackDisk p.1)).1 r 100 3,
           (openTrack 2 (trackDisk p.1)).2, p.2)))
      = some ([[5], [6, 6], [7]], 5, 3) ∧ (5 : Nat) ≠ 3 := by
  decide

/-- C3 fails on the code, shown on a concrete reopened track with
`CHUNK_SIZE = 2` and one chunk file holding one message (`n = 1`,
`stores[0].size = 1`): `OpenTrack` computes the writer's start ordinal as
`n*CHUNK_SIZE + stores[n-1].size = 3`, whereas the claim's formula
`(n-1)*CHUNK_SIZE + stores[n-1].size` gives 1. -/
theorem C3_openTrack_start_ordinal_off_by_one_chunk :
    ((writerRun 2 newTrack 0 [[9]]).map fun p => (openTrack 2 (trackDisk p.1)).2)
      = some 3 ∧ (3 : Nat) ≠ (1 - 1) * 2 + 1 := by
  decide

/-- Counterexample to C10 as stated: on the reachable track produced by
writing two messages with `CHUNK_SIZE = 1` (so chunk 0 was switched to
read-only at rollover), `ReaderAt(0)` does not return a reader with a nil
error — it panics inside `utils.Check` with the out-of-range slice index
of the emptied offset copy (see C5). -/
theorem C10_counterexample :
    ((writerRun 1 newTrack 0 [[1], [2]]).map fun p => trackReaderAt 1 p.1 0)
      = some (.error (.fatal .sliceOutOfRange)) := by
  decide

/-- C10 amended: `Track.ReaderAt` never takes the "Offset out of bounds"
return branch — the guard `offset < 0` is always false for an unsigned
offset.  `ReaderAt` only ever inspects the chunk containing the offset, so
for every offset (including offsets at or beyond the number of messages
written) it returns a non-nil reader and nil error whenever that target
chunk does not exist yet, or exists and is still writable (mapped header
with consistent table length and `size ≤ capacity`) — regardless of the
state of the other chunks; it can, however, panic in `utils.Check` when
the offset falls in a chunk that was switched to read-only. -/
theorem C10_readerAt_never_returns_error (cs : Nat) (t : Track) (offset : Nat) :
    trackReaderAt cs t offset ≠ .error .oobReturn ∧
    (t.stores[offset / cs]? = none →
      ∃ r, trackReaderAt cs t offset = .ok r) ∧
    (∀ st, t.stores[offset / cs]? = some st → st.view = .mapped →
        st.size ≤ st.capacity → st.disk.table.length = st.capacity + 1 →
      ∃ r, trackReaderAt cs t offset = .ok r) := by
  have hneg : ¬ offset < 0 := Nat.not_lt_zero offset
  refine ⟨?_, ?_, ?_⟩
  · rw [trackReaderAt, if_neg hneg]
    cases h : t.stores[offset / cs]? with
    | none => simp [h]
    | some st =>
      simp only [h]
      by_cases hm : offset % cs < st.size
      · rw [if_pos hm]
        cases hr : ReaderAt st (offset % cs) <;> simp
      · rw [if_neg hm]
        simp
  · intro h
    refine ⟨{ offset := offset, currentSub := none }, ?_⟩
    rw [trackReaderAt, if_neg hneg]
    simp [h]
  · intro st h hview hsc htl
    by_cases hm : offset % cs < st.size
    · obtain ⟨pos, hpos⟩ := ReaderAt_ok_of_wf hview hm hsc htl
      refine ⟨{ offset := offset, currentSub := some (offset / cs, pos) }, ?_⟩
      rw [trackReaderAt, if_neg hneg]
      simp [h, if_pos hm, hpos]
    · refine ⟨{ offset := offset, currentSub := none }, ?_⟩
      rw [trackReaderAt, if_neg hneg]
      simp [h, if_neg hm]

/-- Witness for the amended C10 on a rolled-over track (the state after
writing two messages with `CHUNK_SIZE = 1`): chunk 0 was switched to
read-only (its index copy is empty), yet `ReaderAt(1)`, whose target is the
still-writable chunk 1, returns a reader — and no call returns the
out-of-bounds error. -/
theorem C10_witness :
    trackReaderAt 1
      { stores := [
          { capacity := 1, size := 1, view := .copied [],
            disk := { capacityWord := 1, table := [24, 25], data := [1] } },
          { capacity := 1, size := 1, view := .mapped,
            disk := { capacityWord := 1, table := [24, 25], data := [2] } }],
        alive := true } 1 ≠ .error .oobReturn ∧
    ∃ r, trackReaderAt 1
      { stores := [
          { capacity := 1, size := 1, view := .copied [],
            disk := { capacityWord := 1, table := [24, 25], data := [1] } },
          { capacity := 1, size := 1, view := .mapped,
            disk := { capacityWord := 1, table := [24, 25], data := [2] } }],
        alive := true } 1 = .ok r :=
  ⟨(C10_readerAt_never_returns_error 1
      { stores := [
          { capacity := 1, size := 1, view := .copied [],
            disk := { capacityWord := 1, table := [24, 25], data := [1] } },
          { capacity := 1, size := 1, view := .mapped,
            disk := { capacityWord := 1, table := [24, 25], data := [2] } }],
        alive := true } 1).1,
   (C10_readerAt_never_returns_error 1
      { stores := [
          { capacity := 1, size := 1, view := .copied [],
            disk := { capacityWord := 1, table := [24, 25], data := [1] } },
          { capacity := 1, size := 1, view := .mapped,
            disk := { capacityWord := 1, table := [24, 25], data := [2] } }],
        alive := true } 1).2.2
      { capacity := 1, size := 1, view := .mapped,
        disk := { capacityWord := 1, table := [24, 25], data := [2] } }
      (by decide) rfl (by decide) (by decide)⟩

lemma handleRollover_offset (cs : Nat) (t : Track) (r : SReader) :
    (handleRollover cs t r).offset = r.offset := by
  rw [handleRollover]
  split
  · cases h : t.stores[r.offset / cs]? with
    | none => simp [h]
    | some st => cases hr : ReaderAt st 0 <;> simp [h, hr]
  · rfl

/-- C9: on the non-blocking path of `StorageReader.Read` (parent alive,
sub-reader open, target chunk present, next message written), when the
next message's size exceeds the buffer the call fails with the
buffer-too-small error returning 0 bytes and an unchanged reader; otherwise
it delivers exactly one whole message: exactly `nextSize` bytes (the bytes
at the sub-reader's position) are copied into the buffer's prefix and
`(nextSize, Ok)` is returned with the offset advanced by one. -/
theorem C9_read_whole_message_or_buffer_error (cs : Nat) (t : Track)
    (r : SReader) (bufLen subIdx pos nextSize : Nat) (st subStore : FileStorage)
    (halive : t.alive = true)
    (hsub : r.currentSub = some (subIdx, pos))
    (hst : t.stores[r.offset / cs]? = some st)
    (hinner : r.offset % cs < st.size)
    (hsize : SizeOf st (r.offset % cs) = .ok nextSize)
    (hsubst : t.stores[subIdx]? = some subStore)
    (havail : pos + nextSize ≤ (fileBytes subStore.disk).length) :
    (bufLen < nextSize → readStep cs t r bufLen = .bufErr r) ∧
    (nextSize ≤ bufLen → ∃ r1,
      readStep cs t r bufLen =
        .delivered (readBytes subStore.disk pos nextSize) r1 ∧
      (readBytes subStore.disk pos nextSize).length = nextSize ∧
      r1.offset = r.offset + 1) := by
  have halive2 : ¬ t.alive = false := by rw [halive]; simp
  have hlenb : (readBytes subStore.disk pos nextSize).length = nextSize := by
    rw [readBytes, List.length_take, List.length_drop]
    omega
  constructor
  · intro hbuf
    rw [readStep, if_neg halive2]
    simp [hsub, hst, if_neg (Nat.not_le.mpr hinner), hsize, if_pos hbuf]
  · intro hbuf
    refine ⟨handleRollover cs t
      { offset := r.offset + 1
        currentSub := some (subIdx, pos + (readBytes subStore.disk pos nextSize).length) },
      ?_, hlenb, ?_⟩
    · rw [readStep, if_neg halive2]
      simp [hsub, hst, if_neg (Nat.not_le.mpr hinner), hsize,
        if_neg (Nat.not_lt.mpr hbuf), hsubst]
    · rw [handleRollover_offset]

/-- Witness for C9: a one-chunk track holding the single byte message `[9]`
(header 32 bytes), a reader positioned at the message start, and a 10-byte
buffer. -/
theorem C9_witness :
    ∃ r1, readStep 2 { stores := [(mkChunk 2 [[9]]).1], alive := true }
        { offset := 0, currentSub := some (0, 32) } 10 =
      .delivered (readBytes (mkChunk 2 [[9]]).1.disk 32 1) r1 ∧
      (readBytes (mkChunk 2 [[9]]).1.disk 32 1).length = 1 ∧
      r1.offset = 0 + 1 :=
  (C9_read_whole_message_or_buffer_error 2
    { stores := [(mkChunk 2 [[9]]).1], alive := true }
    { offset := 0, currentSub := some (0, 32) } 10 0 32 1
    (mkChunk 2 [[9]]).1 (mkChunk 2 [[9]]).1
    rfl rfl (by decide) (by decide) (by decide) (by decide) (by decide)).2
    (by decide)

end Toybox
